import Mathlib

/-!
Verification of the ScribeFlow transcription pipeline
(`src/backend/asr.py`, `src/backend/utils.py`, `src/backend/diarization.py`).

Shallow embedding conventions:
* times are exact rationals (`ℚ`) where the source works in float seconds,
  and integers (`Int`) where the source works in integer milliseconds
  (`slice_audio` converts to `int` milliseconds before looping);
* Python strings are modelled as `List Char` for the string-manipulating
  helpers (`" ".join`, `.strip`, `re.split`), wrapped into `String` at the
  data-model boundary;
* external effects (the remote transcription call, the ffmpeg decode, the
  thread-pool completion order) are modelled as explicit oracle parameters:
  a `Nat → Except String String` for per-chunk call outcomes, an
  environment record for the decode step, and a `List Nat` completion
  order for the pool;
* the `while` loops are modelled with an explicit fuel parameter so that
  every definition is a total, executable Lean function; a `none` result
  means the loop did not terminate within the given fuel.
-/

namespace ScribeFlow

/-- A diarization speaker turn: `{"start": s, "end": e, "speaker": sp}`
(`src/backend/diarization.py`, `diarize`). -/
structure Turn where
  start : ℚ
  end_ : ℚ
  speaker : String
deriving DecidableEq

/-- A transcribed segment: `{"start": s, "end": e, "text": t}` plus the
optional `"speaker"` key added by the labelling step
(`src/backend/asr.py`, `ASRProcessor.transcribe`). `speaker = none` models
the absence of the `"speaker"` key. -/
structure Seg where
  start : ℚ
  end_ : ℚ
  text : String
  speaker : Option String
deriving DecidableEq

/-- The `diar_meta` dictionary built by `ASRProcessor.transcribe`:
`{"requested": enable_diarization, "turns": 0, "speakers": []}`. -/
structure DiarMeta where
  requested : Bool
  turns : Nat
  speakers : List String
deriving DecidableEq

/-- Default segment used only as the out-of-range value of `List.getD`. -/
def dummySeg : Seg := ⟨0, 0, "", none⟩

/-! ### Python string primitives (`" ".join`, `str.strip`) -/

/-- Python `sep.join(parts)` over char lists: a copy of every part with
`sep` inserted between consecutive parts (also around empty parts). -/
def pyJoin (sep : List Char) : List (List Char) → List Char
  | [] => []
  | [t] => t
  | t :: u :: rest => t ++ sep ++ pyJoin sep (u :: rest)

/-- Python `str.strip()` over char lists: drop whitespace from both ends. -/
def pyStrip (s : List Char) : List Char :=
  ((s.dropWhile Char.isWhitespace).reverse.dropWhile Char.isWhitespace).reverse

/-! ### `merge_short_adjacent` as bound in `src/backend/asr.py`

`asr.py` line 14 runs
`from .diarization import diarize, merge_short_adjacent, is_available ...`.
The module `src/backend/diarization.py` defines no `merge_short_adjacent`,
so that import raises and the `except` branch binds the fallback stubs of
lines 16-18; in particular `merge_short_adjacent(t, *_, **__): return t`.
This identity function is the only `merge_short_adjacent` in the
repository, and the one `transcribe` calls. -/

/-- The fallback `merge_short_adjacent` stub of `asr.py` line 18: returns
its first argument unchanged, ignoring `min_dur` and `max_gap`. -/
def merge_short_adjacent (t : List Turn) (_min_dur _max_gap : ℚ) : List Turn := t

/-- Top-level names bound in the module `src/backend/diarization.py`
(its imports and definitions, in source order). -/
def diarization_module_defs : List String :=
  ["os", "Path", "List", "Dict", "Optional", "torch", "load_dotenv",
   "Pipeline", "_PIPELINE", "_get_token", "_get_pipeline", "diarize",
   "is_available"]

/-- The names `asr.py` line 14 imports from `.diarization`. -/
def asr_import_names : List String :=
  ["diarize", "merge_short_adjacent", "is_available"]

/-- Whether the `from .diarization import ...` statement of `asr.py`
line 14 succeeds: every requested name must be bound in the module. -/
def diarization_import_ok : Bool :=
  asr_import_names.all (fun n => n ∈ diarization_module_defs)

/-- `diarization_available` as seen by `transcribe`: the real
`is_available()` (whose runtime outcome is the oracle `realAvailable`)
when the import succeeded, the constantly-`False` stub of line 16
otherwise. -/
def diarization_available (realAvailable : Bool) : Bool :=
  if diarization_import_ok then realAvailable else false

/-- Python `sorted({t["speaker"] for t in ts})`: deduplicated, sorted
speaker names (`asr.py` line 48). -/
def speakersOf (ts : List Turn) : List String :=
  ((ts.map Turn.speaker).dedup).mergeSort (fun a b => a ≤ b)

/-- The diarization phase of `ASRProcessor.transcribe` (lines 41-54):
start from `speaker_turns = []` and
`diar_meta = {"requested": enable, "turns": 0, "speakers": []}`; when
diarization is enabled and available, run `diarize` (outcome given by the
oracle `diarizeResult`; an exception leaves the empty defaults), pass the
turns through `merge_short_adjacent(..., min_dur=0.6, max_gap=0.4)` and
fill in the meta fields. -/
def transcribe_diar_phase (enable realAvailable : Bool)
    (diarizeResult : Except String (List Turn)) : List Turn × DiarMeta :=
  if enable && diarization_available realAvailable then
    match diarizeResult with
    | Except.ok ts0 =>
      let ts := merge_short_adjacent ts0 0.6 0.4
      (ts, ⟨enable, ts.length, speakersOf ts⟩)
    | Except.error _ => ([], ⟨enable, 0, []⟩)
  else ([], ⟨enable, 0, []⟩)

/-! ### The worker pool (`transcribe` lines 60-76) -/

/-- The pre-allocated slot array and the completion loop:
`ordered_results = [None] * len(slices)`, then, following the completion
order `order` (the order in which `as_completed` hands back futures), the
slot of each completed task's submission index is written with that
task's result. Writing is `List.set`, exactly once per occurrence of the
index in `order`. -/
def fillSlots {α : Type} (n : Nat) (outcome : Nat → α) (order : List Nat) :
    List (Option α) :=
  order.foldl (fun slots idx => slots.set idx (some (outcome idx)))
    (List.replicate n none)

/-- Final assembly (line 76):
`merged_segments = [seg for seg in ordered_results if seg]` — an in-order
pass keeping the filled (truthy) slots. -/
def assemble {α : Type} (slots : List (Option α)) : List α :=
  slots.filterMap id

/-- The per-task body (lines 64-73): the segment written into slot `idx`
spans the window's original `(start_s, end_s)` and carries the text the
remote call returned, or `""` when the call raised (the `except` branch
sets `text = ""`). No `"speaker"` key is present at this point. -/
def poolOutcome (slices : List (ℚ × ℚ)) (call : Nat → Except String String)
    (idx : Nat) : Seg :=
  let sl := slices.getD idx (0, 0)
  ⟨sl.1, sl.2,
   (match call idx with
    | Except.ok t => t
    | Except.error _ => ""), none⟩

/-- Lines 60-76 end to end: run the pool under completion order `order`
and assemble the ordered segment list. Totality of this function is the
"never raises" part of the contract: every per-window failure is absorbed
into an empty-text segment. -/
def poolRun (slices : List (ℚ × ℚ)) (call : Nat → Except String String)
    (order : List Nat) : List Seg :=
  assemble (fillSlots slices.length (poolOutcome slices call) order)

/-- Character-list body of line 77:
`" ".join(seg["text"] for seg in merged_segments).strip()`. -/
def fullTextChars (texts : List (List Char)) : List Char :=
  pyStrip (pyJoin [' '] texts)

/-- `full_text` of `transcribe` line 77: space-join of ALL segment texts
(empty ones included), then `strip`. -/
def full_text (segs : List Seg) : String :=
  String.mk (fullTextChars (segs.map (fun s => s.text.data)))

/-- Modelled from the spec: "`full_text` is the space-joined concatenation
of non-empty segment texts in order" — the space-join of only the
non-empty texts, stated for comparison with `full_text`. -/
def full_text_spec (segs : List Seg) : String :=
  String.mk (pyJoin [' '] ((segs.map (fun s => s.text.data)).filter
    (fun t => t ≠ [])))

/-! ### `_assign_speaker` (lines 114-122) -/

/-- `overlap = max(0.0, min(seg["end"], t["end"]) - max(seg["start"],
t["start"]))`. -/
def overlap (seg : Seg) (t : Turn) : ℚ :=
  max 0 (min seg.end_ t.end_ - max seg.start t.start)

/-- The `for t in turns` loop of `_assign_speaker`, carried accumulators
`best` / `best_overlap`; the update fires only on strict improvement
(`overlap > best_overlap`). -/
def assignLoop (seg : Seg) : List Turn → Option Turn → ℚ → Option Turn × ℚ
  | [], best, bestOv => (best, bestOv)
  | t :: ts, best, bestOv =>
    let ov := overlap seg t
    if bestOv < ov then assignLoop seg ts (some t) ov
    else assignLoop seg ts best bestOv

/-- `ASRProcessor._assign_speaker`: run the loop from `best = None`,
`best_overlap = 0.0`; return the best turn's speaker, or `"SPEAKER_00"`
when no turn ever had positive overlap. -/
def _assign_speaker (seg : Seg) (turns : List Turn) : String :=
  match (assignLoop seg turns none 0).1 with
  | some t => t.speaker
  | none => "SPEAKER_00"

/-- The speaker-labelling step (lines 80-84): when `speaker_turns` is
non-empty (truthy), every segment gains a `"speaker"` key assigned by
`_assign_speaker`; otherwise the segments are left untouched. -/
def transcribe_label (segs : List Seg) (speaker_turns : List Turn) : List Seg :=
  if speaker_turns ≠ [] then
    segs.map (fun s =>
      { s with speaker := some (_assign_speaker s speaker_turns) })
  else segs

/-! ### `slice_audio` (`src/backend/utils.py` lines 161-182)

The source converts to integer milliseconds
(`window_ms = int(window_s*1000)`, `overlap_ms = int(overlap_s*1000)`,
`total_ms = len(audio)`) and then runs a pure integer `while` loop; the
embedding works directly on those integers (the cursor is `Int` because
`start_ms = end_ms - overlap_ms` can go negative when the overlap exceeds
the window). Fuel bounds the number of iterations; `none` means the loop
was still running when the fuel ran out. -/

/-- The `while start_ms < total_ms` loop: yield
`(start_ms, min(start_ms + window_ms, total_ms))`, stop when the window
ends at `total_ms`, else continue from `end_ms - overlap_ms`. -/
def slice_audio_aux (total window overlp : Int) :
    Int → Nat → Option (List (Int × Int))
  | _, 0 => none
  | start, fuel + 1 =>
    if start < total then
      let e := min (start + window) total
      if e = total then some [(start, e)]
      else
        match slice_audio_aux total window overlp (e - overlp) fuel with
        | none => none
        | some ws => some ((start, e) :: ws)
    else some []

/-- `slice_audio` from the start of the track (`start_ms = 0`), returning
the `(start_ms, end_ms)` window bounds in yield order. -/
def slice_audio (total window overlp : Int) (fuel : Nat) :
    Option (List (Int × Int)) :=
  slice_audio_aux total window overlp 0 fuel

/-! ### `_split_sentences` / `_create_sentence_segments` (lines 142-157) -/

/-- The scan implementing `re.split(r"(?<=[.!?])\s+", text)` on an
already-stripped text: a maximal whitespace run immediately following
`.`, `!` or `?` separates parts and is consumed. `acc` holds the current
part reversed; fuel is structural (each step consumes at least one input
character, so `l.length` fuel always suffices). -/
def splitAux : Nat → List Char → List Char → List (List Char)
  | 0, _, acc => [acc.reverse]
  | _ + 1, [], acc => [acc.reverse]
  | fuel + 1, c :: rest, acc =>
    if c.isWhitespace &&
        (acc.head? = some '.' || acc.head? = some '!' ||
         acc.head? = some '?' : Bool) then
      acc.reverse :: splitAux fuel (rest.dropWhile Char.isWhitespace) []
    else splitAux fuel rest (c :: acc)

/-- `ASRProcessor._split_sentences`:
`parts = re.split(r"(?<=[.!?])\s+", text.strip())`, then keep the
non-empty parts. -/
def _split_sentences (text : List Char) : List (List Char) :=
  (splitAux (pyStrip text).length (pyStrip text) []).filter (fun p => p ≠ [])

/-- `segs[-1]["end"] = duration`: rewrite the `end` of the last segment. -/
def setLastEnd : List Seg → ℚ → List Seg
  | [], _ => []
  | [s], d => [{ s with end_ := d }]
  | s :: t :: rest, d => s :: setLastEnd (t :: rest) d

/-- `ASRProcessor._create_sentence_segments`: zero sentences give one
segment `[0, duration]` carrying the raw text; otherwise sentence `i`
spans `[i*tps, (i+1)*tps]` with `tps = duration / max(1, n)` and a
stripped text, and the last end is forced to `duration`. -/
def _create_sentence_segments (text : String) (duration : ℚ) : List Seg :=
  let sentences := _split_sentences text.data
  if sentences = [] then [⟨0, duration, text, none⟩]
  else
    let tps := duration / (max 1 sentences.length : ℚ)
    setLastEnd
      (sentences.enum.map (fun p =>
        ⟨p.1 * tps, (p.1 + 1) * tps, String.mk (pyStrip p.2), none⟩))
      duration

/-! ### `extract_audio` (`src/backend/utils.py` lines 50-83)

The external effects are an environment record: whether
`check_ffmpeg()` succeeds, the outcome of the single ffmpeg decode
attempt (`ffmpeg.run` plus the output-file existence check), and — for
comparison with the spec's claimed secondary path — the outcome a
fallback decoder WOULD have, which the source never consults. -/

structure DecodeEnv where
  ffmpegAvailable : Bool
  primaryDecode : Except String String
  secondaryDecode : Except String String

/-- `extract_audio`: raise when ffmpeg is missing; otherwise run the one
ffmpeg decode and wrap any failure into
`Exception("Audio extraction failed: ...")`. The `secondaryDecode` field
of the environment is never read. -/
def extract_audio (env : DecodeEnv) : Except String String :=
  if env.ffmpegAvailable then
    match env.primaryDecode with
    | Except.ok p => Except.ok p
    | Except.error e => Except.error ("Audio extraction failed: " ++ e)
  else
    Except.error "FFmpeg not found. Please install FFmpeg to process video files."

/-- Modelled from the spec: "if that step fails for any reason (missing
decoder, corrupt input), it falls back to a secondary decode path before
giving up" — the decode the spec describes, stated for comparison with
`extract_audio`. -/
def extract_audio_spec (env : DecodeEnv) : Except String String :=
  match (if env.ffmpegAvailable then env.primaryDecode
         else Except.error "missing decoder") with
  | Except.ok p => Except.ok p
  | Except.error _ =>
    match env.secondaryDecode with
    | Except.ok p => Except.ok p
    | Except.error e => Except.error ("decode failed: " ++ e)

/-- `ASRProcessor._prepare_audio`: a path ending in `.wav` is returned
unchanged, anything else goes through `extract_audio`. -/
def _prepare_audio (isWav : Bool) (path : String) (env : DecodeEnv) :
    Except String String :=
  if isWav then Except.ok path else extract_audio env

/-! ## Helper lemmas about the worker pool -/

theorem foldlSet_getElem? {α : Type} (outcome : Nat → α) (order : List Nat) :
    ∀ (slots : List (Option α)) (i : Nat),
      (order.foldl (fun s idx => s.set idx (some (outcome idx))) slots)[i]? =
        if i ∈ order ∧ i < slots.length then some (some (outcome i))
        else slots[i]? := by
  induction order with
  | nil => intro slots i; simp
  | cons j rest ih =>
    intro slots i
    rw [List.foldl_cons, ih, List.length_set]
    by_cases hmem : i ∈ rest
    · by_cases hlen : i < slots.length
      · simp [hmem, hlen]
      · have h1 : slots.length ≤ i := Nat.le_of_not_lt hlen
        have h2 : (slots.set j (some (outcome j))).length ≤ i := by
          rwa [List.length_set]
        simp [hmem, hlen, List.getElem?_eq_none h1, List.getElem?_eq_none h2]
    · by_cases hij : j = i
      · subst hij
        by_cases hlen : j < slots.length
        · simp [hmem, hlen, List.getElem?_set_self hlen]
        · have h1 : slots.length ≤ j := Nat.le_of_not_lt hlen
          have h2 : (slots.set j (some (outcome j))).length ≤ j := by
            rwa [List.length_set]
          simp [hmem, hlen, List.getElem?_eq_none h1, List.getElem?_eq_none h2]
      · have hne : i ∉ (j :: rest) := by
          intro h
          rcases List.mem_cons.mp h with h | h
          · exact hij h.symm
          · exact hmem h
        simp [hmem, hne, List.getElem?_set_ne hij]

theorem fillSlots_getElem? {α : Type} (n : Nat) (outcome : Nat → α)
    (order : List Nat) (hmem : ∀ i, i ∈ order ↔ i < n) (i : Nat) :
    (fillSlots n outcome order)[i]? =
      if i < n then some (some (outcome i)) else none := by
  rw [fillSlots, foldlSet_getElem?, List.length_replicate,
    List.getElem?_replicate]
  by_cases h : i < n
  · simp [h, (hmem i).mpr h]
  · simp [h]

theorem pool_assemble {α : Type} (n : Nat) (outcome : Nat → α)
    (order : List Nat) (hperm : order.Perm (List.range n)) :
    assemble (fillSlots n outcome order) = (List.range n).map outcome := by
  have hmem : ∀ i, i ∈ order ↔ i < n := fun i => by
    rw [hperm.mem_iff, List.mem_range]
  have hfill : fillSlots n outcome order =
      (List.range n).map (fun i => some (outcome i)) := by
    apply List.ext_getElem?
    intro i
    rw [fillSlots_getElem? n outcome order hmem, List.getElem?_map]
    by_cases h : i < n
    · rw [List.getElem?_range h]; simp [h]
    · have hn : (List.range n).length ≤ i := by
        rw [List.length_range]; omega
      rw [List.getElem?_eq_none hn]
      simp [h]
  rw [hfill]
  show List.filterMap id ((List.range n).map fun i => some (outcome i)) =
    (List.range n).map outcome
  rw [List.filterMap_map]
  exact congrFun (List.filterMap_eq_map outcome) (List.range n)

/-- Elements of any slot array reachable by the completion loop are
either still empty or some task's outcome. -/
theorem mem_foldlSet {α : Type} (outcome : Nat → α) (order : List Nat) :
    ∀ (slots : List (Option α)) (x : Option α),
      x ∈ order.foldl (fun s idx => s.set idx (some (outcome idx))) slots →
      x ∈ slots ∨ ∃ i, x = some (outcome i) := by
  induction order with
  | nil => intro slots x hx; exact Or.inl hx
  | cons j rest ih =>
    intro slots x hx
    rw [List.foldl_cons] at hx
    rcases ih _ x hx with h | h
    · rcases List.mem_or_eq_of_mem_set h with h' | h'
      · exact Or.inl h'
      · exact Or.inr ⟨j, h'⟩
    · exact Or.inr h

theorem map_range_getD {α : Type} (n : Nat) (f : Nat → α) (j : Nat) (d : α)
    (h : j < n) : ((List.range n).map f).getD j d = f j := by
  rw [List.getD_eq_getElem?_getD, List.getElem?_map, List.getElem?_range h]
  rfl

/-! ## Claims C1, C5, C10 -/

/-- Claim C1: for every finite window sequence and every completion order
of the concurrent per-window transcription tasks (modelled as a
permutation of the submission indices), the `transcribe` pool assembles
the returned segment list strictly in original window submission order —
each completion writes exactly its own index-addressed slot, final
assembly is an in-order pass over the slots, and the result is
`(List.range n).map (poolOutcome ...)`, an expression independent of the
completion order. -/
theorem claim_C1_pool_order_independence
    (slices : List (ℚ × ℚ)) (call : Nat → Except String String)
    (order : List Nat) (hperm : order.Perm (List.range slices.length)) :
    poolRun slices call order =
      (List.range slices.length).map (poolOutcome slices call) :=
  pool_assemble slices.length (poolOutcome slices call) order hperm

/-- Witness for C1: a two-window run completed in reversed order. -/
theorem claim_C1_pool_order_independence_witness :
    ([1, 0].Perm (List.range
      ([((0 : ℚ), (30 : ℚ)), (297/10, 60)] : List (ℚ × ℚ)).length)) ∧
    poolRun [((0 : ℚ), (30 : ℚ)), (297/10, 60)] (fun _ => Except.ok "hi")
        [1, 0] =
      (List.range
          ([((0 : ℚ), (30 : ℚ)), (297/10, 60)] : List (ℚ × ℚ)).length).map
        (poolOutcome [((0 : ℚ), (30 : ℚ)), (297/10, 60)]
          (fun _ => Except.ok "hi")) :=
  ⟨by decide,
   claim_C1_pool_order_independence [((0 : ℚ), (30 : ℚ)), (297/10, 60)]
     (fun _ => Except.ok "hi") [1, 0] (by decide)⟩

/-- Concrete windows used by the C5 witness. -/
def wSlices : List (ℚ × ℚ) := [(0, 30), (297/10, 60)]

/-- Concrete per-window call outcomes used by the C5 witness: window 0
raises, window 1 succeeds. -/
def wCall : Nat → Except String String :=
  fun j => if j = 0 then Except.error "boom" else Except.ok "hello"

/-- Claim C5: if the remote transcription call raises for exactly one
window and succeeds for all others, `transcribe` does not raise (the
embedding is a total function): the assembled list has one segment per
window, each segment keeps its window's original `[start, end]` range,
the failing window's segment has empty text, and every succeeding
window's segment carries the returned text. -/
theorem claim_C5_partial_failure
    (slices : List (ℚ × ℚ)) (call : Nat → Except String String)
    (order : List Nat) (i0 : Nat) (e : String)
    (hperm : order.Perm (List.range slices.length))
    (hi0 : i0 < slices.length)
    (hfail : call i0 = Except.error e)
    (_hok : ∀ j, j < slices.length → j ≠ i0 → ∃ t, call j = Except.ok t) :
    (poolRun slices call order).length = slices.length ∧
    (∀ j, j < slices.length →
      ((poolRun slices call order).getD j dummySeg).start =
        (slices.getD j (0, 0)).1 ∧
      ((poolRun slices call order).getD j dummySeg).end_ =
        (slices.getD j (0, 0)).2) ∧
    ((poolRun slices call order).getD i0 dummySeg).text = "" ∧
    (∀ j t, j < slices.length → call j = Except.ok t →
      ((poolRun slices call order).getD j dummySeg).text = t) := by
  have hrun : poolRun slices call order =
      (List.range slices.length).map (poolOutcome slices call) :=
    pool_assemble slices.length (poolOutcome slices call) order hperm
  rw [hrun]
  refine ⟨by simp, ?_, ?_, ?_⟩
  · intro j hj
    rw [map_range_getD slices.length (poolOutcome slices call) j dummySeg hj]
    exact ⟨rfl, rfl⟩
  · rw [map_range_getD slices.length (poolOutcome slices call) i0 dummySeg hi0]
    simp [poolOutcome, hfail]
  · intro j t hj hcall
    rw [map_range_getD slices.length (poolOutcome slices call) j dummySeg hj]
    simp [poolOutcome, hcall]

/-- Witness for C5: two windows, the first raises, completion in reversed
order. -/
theorem claim_C5_partial_failure_witness :
    (poolRun wSlices wCall [1, 0]).length = wSlices.length ∧
    (∀ j, j < wSlices.length →
      ((poolRun wSlices wCall [1, 0]).getD j dummySeg).start =
        (wSlices.getD j (0, 0)).1 ∧
      ((poolRun wSlices wCall [1, 0]).getD j dummySeg).end_ =
        (wSlices.getD j (0, 0)).2) ∧
    ((poolRun wSlices wCall [1, 0]).getD 0 dummySeg).text = "" ∧
    (∀ j t, j < wSlices.length → wCall j = Except.ok t →
      ((poolRun wSlices wCall [1, 0]).getD j dummySeg).text = t) :=
  claim_C5_partial_failure wSlices wCall [1, 0] 0 "boom"
    (by decide) (by decide) rfl
    (fun j hj hne =>
      match j, hj, hne with
      | 0, _, hne => absurd rfl hne
      | 1, _, _ => ⟨"hello", rfl⟩
      | j + 2, hj, _ => absurd hj (Nat.not_lt.mpr (Nat.le_add_left 2 j)))

/-- Claim C10: as the module is written the diarization branch is
unreachable. `from .diarization import diarize, merge_short_adjacent,
is_available` fails because `merge_short_adjacent` is not defined in
`diarization.py`, so `diarization_available` is the constantly-`False`
stub: for every call (any `enable_diarization`, any real runtime
availability, any diarize outcome) `speaker_turns` stays empty,
`meta.diarization` is `{requested: enable, turns: 0, speakers: []}`, the
labelling step is skipped, and no assembled segment carries a speaker
key. -/
theorem claim_C10_diarization_unreachable :
    diarization_import_ok = false ∧
    (∀ (enable realAvailable : Bool) (dres : Except String (List Turn)),
      transcribe_diar_phase enable realAvailable dres =
        ([], ⟨enable, 0, []⟩)) ∧
    (∀ segs : List Seg, transcribe_label segs [] = segs) ∧
    (∀ (slices : List (ℚ × ℚ)) (call : Nat → Except String String)
        (order : List Nat),
      ((poolRun slices call order).all fun s => s.speaker.isNone) = true) := by
  have himp : diarization_import_ok = false := by decide
  refine ⟨himp, ?_, ?_, ?_⟩
  · intro enable realAvailable dres
    have h : diarization_available realAvailable = false := by
      rw [diarization_available, himp]
      simp
    simp [transcribe_diar_phase, h]
  · intro segs
    simp [transcribe_label]
  · intro slices call order
    rw [List.all_eq_true]
    intro s hs
    have hs' : some s ∈
        fillSlots slices.length (poolOutcome slices call) order := by
      simp only [poolRun, assemble] at hs
      obtain ⟨a, ha, hae⟩ := List.mem_filterMap.mp hs
      cases a with
      | none => simp at hae
      | some x =>
        have : x = s := by simpa using hae
        rwa [this] at ha
    rcases mem_foldlSet (poolOutcome slices call) order
        (List.replicate slices.length none) (some s) hs' with h | ⟨i, hi⟩
    · have := List.eq_of_mem_replicate h
      simp at this
    · have hseg : s = poolOutcome slices call i := by simpa using hi
      rw [hseg]
      rfl

/-! ## Helper lemmas about `_assign_speaker` -/

/-- If no remaining turn strictly beats the accumulator, the loop keeps
the accumulator (updates fire only on `overlap > best_overlap`). -/
theorem assignLoop_of_le (seg : Seg) :
    ∀ (ts : List Turn) (best : Option Turn) (bestOv : ℚ),
      (∀ u ∈ ts, overlap seg u ≤ bestOv) →
      assignLoop seg ts best bestOv = (best, bestOv) := by
  intro ts
  induction ts with
  | nil => intro best bestOv _; rfl
  | cons t ts ih =>
    intro best bestOv h
    have ht : overlap seg t ≤ bestOv := h t (List.mem_cons_self t ts)
    rw [assignLoop, if_neg (not_lt.mpr ht)]
    exact ih best bestOv fun u hu => h u (List.mem_cons_of_mem t hu)

/-- If some remaining turn strictly beats the accumulator, the loop
returns the first turn attaining the maximal overlap among the remaining
turns: every earlier turn has strictly smaller overlap, every turn at
most its overlap. -/
theorem assignLoop_found (seg : Seg) :
    ∀ (ts : List Turn) (best : Option Turn) (bestOv : ℚ),
      (∃ u ∈ ts, bestOv < overlap seg u) →
      ∃ pre t' post, ts = pre ++ t' :: post ∧
        assignLoop seg ts best bestOv = (some t', overlap seg t') ∧
        bestOv < overlap seg t' ∧
        (∀ u ∈ pre, overlap seg u < overlap seg t') ∧
        (∀ u ∈ ts, overlap seg u ≤ overlap seg t') := by
  intro ts
  induction ts with
  | nil => rintro best bestOv ⟨u, hu, -⟩; exact absurd hu (List.not_mem_nil u)
  | cons t ts ih =>
    rintro best bestOv ⟨u, hu, hlt⟩
    by_cases h : bestOv < overlap seg t
    · rw [assignLoop, if_pos h]
      by_cases h2 : ∃ v ∈ ts, overlap seg t < overlap seg v
      · obtain ⟨pre, t', post, heq, hres, hgt, hpre, hall⟩ :=
          ih (some t) (overlap seg t) h2
        refine ⟨t :: pre, t', post, by rw [heq, List.cons_append], hres, lt_trans h hgt, ?_, ?_⟩
        · intro v hv
          rcases List.mem_cons.mp hv with hv | hv
          · rw [hv]; exact hgt
          · exact hpre v hv
        · intro v hv
          rcases List.mem_cons.mp hv with hv | hv
          · rw [hv]; exact le_of_lt hgt
          · exact hall v hv
      · push_neg at h2
        refine ⟨[], t, ts, rfl, assignLoop_of_le seg ts (some t)
          (overlap seg t) h2, h, by simp, ?_⟩
        intro v hv
        rcases List.mem_cons.mp hv with hv | hv
        · rw [hv]
        · exact h2 v hv
    · have hle : overlap seg t ≤ bestOv := not_lt.mp h
      rw [assignLoop, if_neg h]
      have h2 : ∃ v ∈ ts, bestOv < overlap seg v := by
        rcases List.mem_cons.mp hu with hu | hu
        · exact absurd hlt (not_lt.mpr (hu ▸ hle))
        · exact ⟨u, hu, hlt⟩
      obtain ⟨pre, t', post, heq, hres, hgt, hpre, hall⟩ := ih best bestOv h2
      refine ⟨t :: pre, t', post, by rw [heq, List.cons_append], hres, hgt, ?_, ?_⟩
      · intro v hv
        rcases List.mem_cons.mp hv with hv | hv
        · rw [hv]; exact lt_of_le_of_lt hle hgt
        · exact hpre v hv
      · intro v hv
        rcases List.mem_cons.mp hv with hv | hv
        · rw [hv]; exact le_trans hle (le_of_lt hgt)
        · exact hall v hv

/-- Every overlap is non-negative (it is clamped by `max(0.0, ...)`). -/
theorem overlap_nonneg (seg : Seg) (t : Turn) : 0 ≤ overlap seg t :=
  le_max_left 0 _

/-! ## Claim C4 -/

/-- Claim C4: `_assign_speaker` returns the speaker of the turn with
maximal temporal overlap (`overlap = max(0, min(seg.end, turn.end) -
max(seg.start, turn.start))`), ties broken in favour of the
first-encountered turn (every earlier turn has strictly smaller overlap
than the selected one); when every turn has zero overlap the default
`"SPEAKER_00"` is returned; and on segment `[10,20]` with turns
`[0,12]→A`, `[12,25]→B` the answer is `B`. -/
theorem claim_C4_assign_speaker_max_overlap :
    (∀ (seg : Seg) (turns : List Turn),
      ((∀ t ∈ turns, overlap seg t = 0) →
        _assign_speaker seg turns = "SPEAKER_00") ∧
      ((∃ t ∈ turns, 0 < overlap seg t) →
        ∃ pre t' post, turns = pre ++ t' :: post ∧
          _assign_speaker seg turns = t'.speaker ∧
          0 < overlap seg t' ∧
          (∀ u ∈ pre, overlap seg u < overlap seg t') ∧
          (∀ u ∈ turns, overlap seg u ≤ overlap seg t'))) ∧
    _assign_speaker ⟨10, 20, "", none⟩ [⟨0, 12, "A"⟩, ⟨12, 25, "B"⟩] = "B" := by
  constructor
  · intro seg turns
    constructor
    · intro h
      rw [_assign_speaker, assignLoop_of_le seg turns none 0
        (fun u hu => le_of_eq (h u hu))]
    · rintro ⟨t, ht, hpos⟩
      obtain ⟨pre, t', post, heq, hres, hgt, hpre, hall⟩ :=
        assignLoop_found seg turns none 0 ⟨t, ht, hpos⟩
      exact ⟨pre, t', post, heq, by rw [_assign_speaker, hres], hgt, hpre, hall⟩
  · show _assign_speaker ⟨10, 20, "", none⟩ [⟨0, 12, "A"⟩, ⟨12, 25, "B"⟩] = "B"
    rw [_assign_speaker]
    have h1 : overlap ⟨10, 20, "", none⟩ ⟨0, 12, "A"⟩ = 2 := by
      rw [overlap]
      norm_num
    have h2 : overlap ⟨10, 20, "", none⟩ ⟨12, 25, "B"⟩ = 8 := by
      rw [overlap]
      norm_num
    rw [assignLoop, if_pos (by rw [h1]; norm_num), assignLoop,
      if_pos (by rw [h1, h2]; norm_num), assignLoop]

/-- Witness for C4: the empty-turns default branch and the concrete
maximal-overlap example. -/
theorem claim_C4_assign_speaker_max_overlap_witness :
    _assign_speaker ⟨10, 20, "", none⟩ [] = "SPEAKER_00" ∧
    _assign_speaker ⟨10, 20, "", none⟩ [⟨0, 12, "A"⟩, ⟨12, 25, "B"⟩] = "B" :=
  ⟨(claim_C4_assign_speaker_max_overlap.1 ⟨10, 20, "", none⟩ []).1
      (by simp),
   claim_C4_assign_speaker_max_overlap.2⟩

/-! ## Claim C3 -/

/-- Claim C3 (evaluation at the spec's own example): the
`merge_short_adjacent` that `transcribe` actually calls — the fallback
stub bound because the import from `diarization.py` fails — returns its
input unchanged. The same-speaker turns `[0,1]→A` and `[1.2,2]→A` with
`min_dur=0.6`, `max_gap=0.4` are NOT coalesced into `[0,2]→A`, and the
short turn `[0,0.2]→A` keeps its duration `0.2 < 0.6` instead of being
stretched. -/
theorem claim_C3_merge_stub_is_identity :
    merge_short_adjacent [⟨0, 1, "A"⟩, ⟨1.2, 2, "A"⟩] 0.6 0.4 =
      [⟨0, 1, "A"⟩, ⟨1.2, 2, "A"⟩] ∧
    merge_short_adjacent [⟨0, 1, "A"⟩, ⟨1.2, 2, "A"⟩] 0.6 0.4 ≠
      [⟨0, 2, "A"⟩] ∧
    merge_short_adjacent [⟨0, 0.2, "A"⟩] 0.6 0.4 = [⟨0, 0.2, "A"⟩] ∧
    (⟨0, 0.2, "A"⟩ : Turn).end_ - (⟨0, 0.2, "A"⟩ : Turn).start < 0.6 := by
  refine ⟨rfl, ?_, rfl, by norm_num⟩
  intro h
  rw [merge_short_adjacent] at h
  simp at h

/-! ## Claim C9 -/

/-- Counterexample for C9: with ffmpeg present, a failing primary decode
("corrupt input") and a secondary decode that would succeed,
`extract_audio` surfaces the fatal error anyway — the secondary path the
spec describes (embodied by `extract_audio_spec`) is never attempted, so
the fatal error is NOT surfaced "only after both the primary and the
fallback decode paths have failed". -/
theorem claim_C9_counterexample :
    extract_audio ⟨true, Except.error "corrupt input",
        Except.ok "fallback.wav"⟩ =
      Except.error "Audio extraction failed: corrupt input" ∧
    extract_audio_spec ⟨true, Except.error "corrupt input",
        Except.ok "fallback.wav"⟩ =
      Except.ok "fallback.wav" :=
  ⟨rfl, rfl⟩

/-- Claim C9 (amended): audio preparation has a single external decode
path. A WAV input bypasses decoding; otherwise the result never depends
on any would-be secondary decoder, a missing ffmpeg is immediately fatal,
and a primary decode failure is immediately surfaced as
`Audio extraction failed: ...`. -/
theorem claim_C9_single_decode_path :
    (∀ (isWav : Bool) (path : String) (env : DecodeEnv),
      isWav = true → _prepare_audio isWav path env = Except.ok path) ∧
    (∀ (avail : Bool) (p s s' : Except String String),
      extract_audio ⟨avail, p, s⟩ = extract_audio ⟨avail, p, s'⟩) ∧
    (∀ (p s : Except String String),
      extract_audio ⟨false, p, s⟩ = Except.error
        "FFmpeg not found. Please install FFmpeg to process video files.") ∧
    (∀ (e : String) (s : Except String String),
      extract_audio ⟨true, Except.error e, s⟩ =
        Except.error ("Audio extraction failed: " ++ e)) := by
  refine ⟨?_, ?_, fun p s => rfl, fun e s => rfl⟩
  · intro isWav path env h
    rw [h, _prepare_audio, if_pos rfl]
  · intro avail p s s'
    cases avail <;> rfl

/-- Witness for C9: the WAV passthrough branch at a concrete input. -/
theorem claim_C9_single_decode_path_witness :
    _prepare_audio true "a.wav"
      ⟨true, Except.error "x", Except.error "y"⟩ = Except.ok "a.wav" :=
  claim_C9_single_decode_path.1 true "a.wav"
    ⟨true, Except.error "x", Except.error "y"⟩ rfl

/-! ## Helper lemmas about `pyJoin` / `pyStrip` -/

theorem dropWhile_eq_self_of_head (p : Char → Bool) (l : List Char)
    (h : ∀ c, l.head? = some c → p c = false) : l.dropWhile p = l := by
  cases l with
  | nil => rfl
  | cons c m => simp [List.dropWhile_cons, h c rfl]

theorem pyStrip_eq_self (l : List Char)
    (h1 : ∀ c, l.head? = some c → c.isWhitespace = false)
    (h2 : ∀ c, l.getLast? = some c → c.isWhitespace = false) :
    pyStrip l = l := by
  rw [pyStrip, dropWhile_eq_self_of_head _ _ h1,
    dropWhile_eq_self_of_head _ _ ?_, List.reverse_reverse]
  intro c hc
  exact h2 c (by rwa [List.head?_reverse] at hc)

theorem pyJoin_eq_append_head (sep : List Char) (t : List Char)
    (xs : List (List Char)) : ∃ z, pyJoin sep (t :: xs) = t ++ z := by
  cases xs with
  | nil => exact ⟨[], by simp [pyJoin]⟩
  | cons u rest => exact ⟨sep ++ pyJoin sep (u :: rest), by
      simp [pyJoin, List.append_assoc]⟩

theorem pyJoin_eq_append_last (sep : List Char) :
    ∀ (ts : List (List Char)) (t : List Char),
      ∃ z, pyJoin sep (ts ++ [t]) = z ++ t := by
  intro ts
  induction ts with
  | nil => exact fun t => ⟨[], by simp [pyJoin]⟩
  | cons x ts ih =>
    intro t
    obtain ⟨z, hz⟩ := ih t
    cases hts : ts ++ [t] with
    | nil => exact absurd hts (by simp)
    | cons u rest =>
      refine ⟨x ++ sep ++ z, ?_⟩
      rw [List.cons_append, hts, pyJoin, ← hts, hz, List.append_assoc,
        List.append_assoc, List.append_assoc]

/-- On texts that are all non-empty and carry no whitespace at either
end, join-then-strip coincides with joining only the non-empty texts. -/
theorem fullTextChars_of_clean (texts : List (List Char))
    (htext : ∀ t ∈ texts, t ≠ [] ∧
      (∀ c, t.head? = some c → c.isWhitespace = false) ∧
      (∀ c, t.getLast? = some c → c.isWhitespace = false)) :
    fullTextChars texts = pyJoin [' '] (texts.filter (fun t => t ≠ [])) := by
  have hfilter : texts.filter (fun t => t ≠ []) = texts :=
    List.filter_eq_self.mpr fun a ha => by
      simpa using (htext a ha).1
  rw [hfilter, fullTextChars]
  cases texts with
  | nil => rfl
  | cons t xs =>
    apply pyStrip_eq_self
    · obtain ⟨z, hz⟩ := pyJoin_eq_append_head [' '] t xs
      obtain ⟨hne, hh, -⟩ := htext t (List.mem_cons_self t xs)
      cases t with
      | nil => exact absurd rfl hne
      | cons c t'' =>
        intro c' hc'
        rw [hz, List.cons_append] at hc'
        have : c' = c := by simpa using hc'.symm
        exact this ▸ hh c rfl
    · have hne : (t :: xs : List (List Char)) ≠ [] := by simp
      have hsplit := List.dropLast_append_getLast hne
      obtain ⟨z, hz⟩ :=
        pyJoin_eq_append_last [' '] (t :: xs).dropLast ((t :: xs).getLast hne)
      obtain ⟨hlne, -, hl⟩ := htext _ (List.getLast_mem hne)
      intro c hc
      rw [show pyJoin [' '] (t :: xs) =
            pyJoin [' '] ((t :: xs).dropLast ++ [(t :: xs).getLast hne]) by
          rw [hsplit], hz, List.getLast?_append_of_ne_nil z hlne] at hc
      exact hl c hc

/-! ## Claim C6 -/

/-- Counterexample for C6: the code joins ALL segment texts with a space
and then merely strips the ends (`" ".join(...).strip()`), so an
empty-text segment between two non-empty ones DOES introduce extra
whitespace: texts `"a"`, `""`, `"b"` give `"a  b"` (two spaces), not the
claimed space-join of the non-empty texts `"a b"`. -/
theorem claim_C6_counterexample :
    full_text [⟨0, 1, "a", none⟩, ⟨1, 2, "", none⟩, ⟨2, 3, "b", none⟩] =
      "a  b" ∧
    full_text_spec
        [⟨0, 1, "a", none⟩, ⟨1, 2, "", none⟩, ⟨2, 3, "b", none⟩] = "a b" ∧
    full_text [⟨0, 1, "a", none⟩, ⟨1, 2, "", none⟩, ⟨2, 3, "b", none⟩] ≠
      full_text_spec
        [⟨0, 1, "a", none⟩, ⟨1, 2, "", none⟩, ⟨2, 3, "b", none⟩] :=
  ⟨by decide, by decide, by decide⟩

/-- Claim C6 (amended): `full_text` is the space-join of ALL segment
texts in chronological order with leading/trailing whitespace stripped.
When every segment text is non-empty and has no whitespace at either end,
this coincides with the space-joined non-empty texts; an empty text
between two others always contributes an extra separator space. -/
theorem claim_C6_full_text_join :
    (∀ segs : List Seg,
      (∀ s ∈ segs,
        s.text.data ≠ [] ∧
        (s.text.data.head?.all fun c => !c.isWhitespace) = true ∧
        (s.text.data.getLast?.all fun c => !c.isWhitespace) = true) →
      full_text segs = full_text_spec segs) ∧
    (∀ a b : List Char, pyJoin [' '] [a, [], b] = a ++ ' ' :: ' ' :: b) := by
  constructor
  · intro segs h
    rw [full_text, full_text_spec]
    refine congrArg String.mk ?_
    apply fullTextChars_of_clean
    intro t ht
    obtain ⟨s, hs, rfl⟩ := List.mem_map.mp ht
    obtain ⟨h1, h2, h3⟩ := h s hs
    refine ⟨h1, ?_, ?_⟩
    · intro c hc
      rw [hc] at h2
      simpa using h2
    · intro c hc
      rw [hc] at h3
      simpa using h3
  · intro a b
    simp [pyJoin]

/-- Witness for C6: two clean texts, where join-then-strip and
join-of-non-empty agree. -/
theorem claim_C6_full_text_join_witness :
    (∀ s ∈ ([⟨0, 1, "ab", none⟩, ⟨1, 2, "c", none⟩] : List Seg),
      s.text.data ≠ [] ∧
      (s.text.data.head?.all fun c => !c.isWhitespace) = true ∧
      (s.text.data.getLast?.all fun c => !c.isWhitespace) = true) ∧
    full_text [⟨0, 1, "ab", none⟩, ⟨1, 2, "c", none⟩] =
      full_text_spec [⟨0, 1, "ab", none⟩, ⟨1, 2, "c", none⟩] :=
  ⟨by decide, claim_C6_full_text_join.1
    [⟨0, 1, "ab", none⟩, ⟨1, 2, "c", none⟩] (by decide)⟩

/-! ## Helper lemmas about `slice_audio` -/

/-- Invariant of the slicing loop from an arbitrary cursor: with
`0 ≤ overlap < window` and enough fuel, the loop terminates and returns a
window list that starts at the cursor, chains by
`next.start = prev.end - overlap`, ends exactly at `total`, and covers
every instant of `[cursor, total)`. -/
theorem slice_aux_spec (total window overlp : Int) (hov : 0 ≤ overlp)
    (hlt : overlp < window) :
    ∀ (fuel : Nat) (start : Int), start < total →
      (total - start).toNat ≤ fuel →
      ∃ ws, slice_audio_aux total window overlp start fuel = some ws ∧
        ws.head?.map Prod.fst = some start ∧
        List.Chain' (fun a b => b.1 = a.2 - overlp) ws ∧
        ws.getLast?.map Prod.snd = some total ∧
        (∀ t : Int, start ≤ t → t < total →
          ∃ w ∈ ws, w.1 ≤ t ∧ t < w.2) := by
  intro fuel
  induction fuel with
  | zero => intro start h1 h2; exfalso; omega
  | succ fuel ih =>
    intro start h1 h2
    simp only [slice_audio_aux, if_pos h1]
    by_cases he : min (start + window) total = total
    · rw [if_pos he, he]
      refine ⟨[(start, total)], rfl, by simp, by simp, by simp, ?_⟩
      intro t ht1 ht2
      exact ⟨(start, total), by simp, ht1, ht2⟩
    · rw [if_neg he]
      have h3 : start + window < total := by omega
      have hmin : min (start + window) total = start + window := by omega
      rw [hmin]
      have h4 : start + window - overlp < total := by omega
      have h5 : (total - (start + window - overlp)).toNat ≤ fuel := by omega
      obtain ⟨ws, hws, hhead, hchain, hlast, hcov⟩ :=
        ih (start + window - overlp) h4 h5
      rw [hws]
      refine ⟨(start, start + window) :: ws, rfl, by simp, ?_, ?_, ?_⟩
      · rw [List.chain'_cons']
        refine ⟨?_, hchain⟩
        intro b hb
        cases hwhead : ws.head? with
        | none => rw [hwhead] at hb; exact absurd hb (by simp)
        | some w0 =>
          rw [hwhead] at hb hhead
          have hb' : w0 = b := by simpa using hb
          have hw0 : w0.1 = start + window - overlp := by simpa using hhead
          rw [← hb']
          exact hw0
      · cases ws with
        | nil => simp at hhead
        | cons w0 rest =>
          rw [List.getLast?_cons_cons]
          exact hlast
      · intro t ht1 ht2
        by_cases htw : t < start + window
        · exact ⟨(start, start + window), List.mem_cons_self _ _, ht1, htw⟩
        · obtain ⟨w, hw, hw1, hw2⟩ := hcov t (by omega) ht2
          exact ⟨w, List.mem_cons_of_mem _ hw, hw1, hw2⟩

/-- With `overlap ≥ window` the cursor never advances past `0`, so the
loop never reaches a terminating state: whatever the fuel, it is
exhausted. -/
theorem slice_aux_stuck (total window overlp : Int) (hw : 0 < window)
    (hwo : window ≤ overlp) (hwt : window < total) :
    ∀ (fuel : Nat) (start : Int), start ≤ 0 →
      slice_audio_aux total window overlp start fuel = none := by
  intro fuel
  induction fuel with
  | zero => intro start _; rfl
  | succ fuel ih =>
    intro start hs
    have h1 : start < total := by omega
    have hne : ¬ min (start + window) total = total := by omega
    have hm : min (start + window) total = start + window := by omega
    simp only [slice_audio_aux, if_pos h1]
    rw [if_neg hne, hm, ih (start + window - overlp) (by omega)]

/-! ## Claims C2 and C7 -/

/-- Claim C2: for a track of `total > 0` milliseconds and parameters
`0 ≤ overlap_ms < window_ms` (the integers the source computes from
`window_s`, `overlap_s`), `slice_audio` terminates and yields a finite
ordered window list whose first window starts at `0`, whose consecutive
windows satisfy `next.start = prev.end - overlap`, which covers every
instant of `[0, total)` with the last window ending exactly at `total`,
and which is the single window `[(0, total)]` whenever the track is at
most one window long. -/
theorem claim_C2_windowing_coverage
    (total window overlp : Int) (fuel : Nat)
    (hpos : 0 < total) (hov : 0 ≤ overlp) (hlt : overlp < window)
    (hfuel : total.toNat < fuel) :
    ∃ ws, slice_audio total window overlp fuel = some ws ∧
      ws.head?.map Prod.fst = some 0 ∧
      List.Chain' (fun a b => b.1 = a.2 - overlp) ws ∧
      ws.getLast?.map Prod.snd = some total ∧
      (∀ t : Int, 0 ≤ t → t < total → ∃ w ∈ ws, w.1 ≤ t ∧ t < w.2) ∧
      (total ≤ window → ws = [(0, total)]) := by
  obtain ⟨ws, hws, hhead, hchain, hlast, hcov⟩ :=
    slice_aux_spec total window overlp hov hlt fuel 0 hpos (by omega)
  refine ⟨ws, hws, hhead, hchain, hlast, hcov, ?_⟩
  intro hle
  cases fuel with
  | zero => omega
  | succ fuel =>
    have hm : min ((0 : Int) + window) total = total := by omega
    have hone : slice_audio total window overlp (fuel + 1) =
        some [(0, total)] := by
      rw [slice_audio]
      simp only [slice_audio_aux, if_pos hpos]
      rw [if_pos hm, hm]
    rw [slice_audio, hws] at hone
    exact (Option.some.injEq _ _).mp hone

/-- Witness for C2: a 2500 ms track with 1000 ms windows and 300 ms
overlap. -/
theorem claim_C2_windowing_coverage_witness :
    ∃ ws, slice_audio 2500 1000 300 2501 = some ws ∧
      ws.head?.map Prod.fst = some 0 ∧
      List.Chain' (fun a b => b.1 = a.2 - 300) ws ∧
      ws.getLast?.map Prod.snd = some 2500 ∧
      (∀ t : Int, 0 ≤ t → t < 2500 → ∃ w ∈ ws, w.1 ≤ t ∧ t < w.2) ∧
      ((2500 : Int) ≤ 1000 → ws = [(0, 2500)]) :=
  claim_C2_windowing_coverage 2500 1000 300 2501
    (by decide) (by decide) (by decide) (by decide)

/-- Claim C7 (evaluation of the unguarded loop): there is no
configuration check in `slice_audio`. With `overlap_ms ≥ window_ms > 0`
and a track longer than one window the cursor never advances, and the
loop runs forever instead of stopping with an explicit error: for EVERY
fuel bound the embedded loop is still running (`none`), i.e. the source
loops silently. -/
theorem claim_C7_overlap_not_guarded
    (total window overlp : Int) (fuel : Nat)
    (hw : 0 < window) (hwo : window ≤ overlp) (hwt : window < total) :
    slice_audio total window overlp fuel = none :=
  slice_aux_stuck total window overlp hw hwo hwt fuel 0 le_rfl

/-- Witness for C7: the default 30 s window with a 30 s overlap on a
60 s track never terminates. -/
theorem claim_C7_overlap_not_guarded_witness :
    slice_audio 60000 30000 30000 9 = none :=
  claim_C7_overlap_not_guarded 60000 30000 30000 9
    (by decide) (by decide) (by decide)

/-! ## Helper lemmas about `setLastEnd` -/

theorem setLastEnd_length (l : List Seg) (d : ℚ) :
    (setLastEnd l d).length = l.length := by
  induction l with
  | nil => rfl
  | cons s rest ih =>
    cases rest with
    | nil => rfl
    | cons t r => simpa [setLastEnd] using ih

theorem setLastEnd_getElem? (l : List Seg) (d : ℚ) :
    ∀ i : Nat, (setLastEnd l d)[i]? =
      if i = l.length - 1 then l[i]?.map (fun s => { s with end_ := d })
      else l[i]? := by
  induction l with
  | nil => intro i; cases i <;> simp [setLastEnd]
  | cons s rest ih =>
    intro i
    cases rest with
    | nil => cases i <;> simp [setLastEnd]
    | cons t r =>
      cases i with
      | zero =>
        rw [show setLastEnd (s :: t :: r) d = s :: setLastEnd (t :: r) d
          from rfl]
        rw [if_neg (by simp)]
        simp
      | succ i =>
        rw [show setLastEnd (s :: t :: r) d = s :: setLastEnd (t :: r) d
          from rfl]
        rw [List.getElem?_cons_succ, ih i]
        simp only [List.getElem?_cons_succ, List.length_cons]
        by_cases h : i = (t :: r : List Seg).length - 1
        · rw [if_pos (by simp only [List.length_cons] at h ⊢; omega),
            if_pos (by simp only [List.length_cons] at h ⊢; omega)]
        · rw [if_neg (by simp only [List.length_cons] at h ⊢; omega),
            if_neg (by simp only [List.length_cons] at h ⊢; omega)]

theorem setLastEnd_getLast? (l : List Seg) (d : ℚ) :
    (setLastEnd l d).getLast? =
      l.getLast?.map fun s => { s with end_ := d } := by
  induction l with
  | nil => rfl
  | cons s rest ih =>
    cases rest with
    | nil => rfl
    | cons t r =>
      have hne : setLastEnd (t :: r) d ≠ [] := by
        intro h
        have := congrArg List.length h
        rw [setLastEnd_length] at this
        simp at this
      rw [show setLastEnd (s :: t :: r) d = s :: setLastEnd (t :: r) d
        from rfl]
      cases hsl : setLastEnd (t :: r) d with
      | nil => exact absurd hsl hne
      | cons a as =>
        rw [List.getLast?_cons_cons, ← hsl, ih, List.getLast?_cons_cons]

/-! ## Claim C8 -/

/-- Claim C8: when the sentence split of the fallback text yields
`n ≥ 1` sentences, `_create_sentence_segments` produces exactly `n`
segments, each spanning `duration / n` seconds, with the last segment's
end forced to exactly `duration`; when the split yields zero sentences it
returns the single segment `[0, duration]` carrying the raw text. -/
theorem claim_C8_fallback_segmentation (text : String) (D : ℚ) :
    (1 ≤ (_split_sentences text.data).length →
      (_create_sentence_segments text D).length =
        (_split_sentences text.data).length ∧
      (∀ i, i < (_split_sentences text.data).length →
        ((_create_sentence_segments text D).getD i dummySeg).end_ -
          ((_create_sentence_segments text D).getD i dummySeg).start =
          D / ((_split_sentences text.data).length : ℚ)) ∧
      ((_create_sentence_segments text D).getLast?.map Seg.end_ =
        some D)) ∧
    ((_split_sentences text.data).length = 0 →
      _create_sentence_segments text D = [⟨0, D, text, none⟩]) := by
  constructor
  · intro hn
    have hne : _split_sentences text.data ≠ [] := by
      intro h
      rw [h] at hn
      simp at hn
    have hcreate : _create_sentence_segments text D =
        setLastEnd
          ((_split_sentences text.data).enum.map (fun p =>
            ⟨p.1 * (D / (max 1 (_split_sentences text.data).length : ℚ)),
             (p.1 + 1) *
               (D / (max 1 (_split_sentences text.data).length : ℚ)),
             String.mk (pyStrip p.2), none⟩))
          D := by
      rw [_create_sentence_segments]
      simp only [if_neg hne]
    have hmax : max (1 : ℚ) ((_split_sentences text.data).length : ℚ) =
        ((_split_sentences text.data).length : ℚ) :=
      max_eq_right (by exact_mod_cast hn)
    have hnq : ((_split_sentences text.data).length : ℚ) ≠ 0 := by
      have : 0 < (_split_sentences text.data).length := hn
      positivity
    have hbaselen :
        ((_split_sentences text.data).enum.map (fun p =>
          (⟨p.1 * (D / (max 1 (_split_sentences text.data).length : ℚ)),
            (p.1 + 1) *
              (D / (max 1 (_split_sentences text.data).length : ℚ)),
            String.mk (pyStrip p.2), none⟩ : Seg))).length =
        (_split_sentences text.data).length := by
      rw [List.length_map, List.enum_length]
    refine ⟨?_, ?_, ?_⟩
    · rw [hcreate, setLastEnd_length, hbaselen]
    · intro i hi
      rw [List.getD_eq_getElem?_getD, hcreate, setLastEnd_getElem?,
        hbaselen, List.getElem?_map, List.getElem?_enum,
        List.getElem?_eq_getElem hi]
      simp only [Option.map_some']
      by_cases h : i = (_split_sentences text.data).length - 1
      · rw [if_pos h]
        simp only [Option.getD_some]
        show D - i *
          (D / (max 1 (_split_sentences text.data).length : ℚ)) = _
        rw [hmax, h]
        rw [Nat.cast_sub hn]
        push_cast
        field_simp
        ring
      · rw [if_neg h]
        simp only [Option.getD_some]
        show (i + 1) *
            (D / (max 1 (_split_sentences text.data).length : ℚ)) -
          i * (D / (max 1 (_split_sentences text.data).length : ℚ)) = _
        rw [hmax]
        ring
    · rw [hcreate, setLastEnd_getLast?]
      have hbne : ((_split_sentences text.data).enum.map (fun p =>
          (⟨p.1 * (D / (max 1 (_split_sentences text.data).length : ℚ)),
            (p.1 + 1) *
              (D / (max 1 (_split_sentences text.data).length : ℚ)),
            String.mk (pyStrip p.2), none⟩ : Seg))) ≠ [] := by
        intro h
        have := congrArg List.length h
        rw [hbaselen] at this
        simp at this
        exact hne this
      have hsome := List.getLast?_isSome.mpr hbne
      obtain ⟨x, hx⟩ := Option.isSome_iff_exists.mp hsome
      rw [hx]
      rfl
  · intro h0
    rw [_create_sentence_segments]
    simp only [if_pos (List.length_eq_zero.mp h0)]

/-- Witness for C8: `"One. Two. Three."` over nine seconds gives three
three-second segments ending exactly at `9`. -/
theorem claim_C8_fallback_segmentation_witness :
    1 ≤ (_split_sentences ("One. Two. Three." : String).data).length ∧
    ((_create_sentence_segments "One. Two. Three." 9).length =
      (_split_sentences ("One. Two. Three." : String).data).length ∧
    (∀ i, i < (_split_sentences ("One. Two. Three." : String).data).length →
      ((_create_sentence_segments "One. Two. Three." 9).getD i
          dummySeg).end_ -
        ((_create_sentence_segments "One. Two. Three." 9).getD i
          dummySeg).start =
        9 / ((_split_sentences ("One. Two. Three." : String).data).length :
          ℚ)) ∧
    ((_create_sentence_segments "One. Two. Three." 9).getLast?.map
        Seg.end_ = some 9)) :=
  ⟨by decide,
   (claim_C8_fallback_segmentation "One. Two. Three." 9).1 (by decide)⟩

end ScribeFlow
